import Mathlib

/-!
Verification of the react-docgen core: the expression-path flattening
algorithm of `src/utils/expressionTo.js` and the definition-resolution /
extractor-chain dispatch of `src/parse.js`.

The two source files are embedded shallowly.  External collaborators that
are imported but not part of the source tree (the Value Resolver
`resolveToValue`, the `Documentation` record, the Normalizer
`postProcessDocumentation`, and the Syntax Tree Provider `recast`) are
modelled from the specification and are marked as such in their doc
comments.
-/

namespace ExpressionTo

/--
Syntax nodes, covering exactly the node kinds that `toArray` in
`expressionTo.js` dispatches on: `CallExpression`, `MemberExpression`
(static or computed; in a well-formed ESTree a non-computed member's
property is always an identifier, so the static constructor carries the
property name directly, mirroring the code's `node.property.name`),
`Identifier`, `Literal` (carrying its raw textual representation),
`ThisExpression`, `ObjectExpression` (a list of key/value node pairs),
`ArrayExpression`, plus a constructor `other` standing for the open set of
all remaining node kinds, which the loop skips.
-/
inductive Node : Type where
  | call (callee : Node) (args : List Node)
  | memberStatic (object : Node) (propertyName : String)
  | memberComputed (object : Node) (property : Node)
  | identifier (name : String)
  | literal (raw : String)
  | thisExpr
  | objectExpr (properties : List (Node × Node))
  | arrayExpr (elements : List Node)
  | other

instance : Inhabited Node := ⟨Node.other⟩

mutual

/-- Size of a syntax node: every node counts 1 plus its children. -/
def Node.size : Node → Nat
  | .call c args => 1 + c.size + sizeList args
  | .memberStatic o _ => 1 + o.size
  | .memberComputed o k => 1 + o.size + k.size
  | .identifier _ => 1
  | .literal _ => 1
  | .thisExpr => 1
  | .objectExpr props => 1 + sizePairs props
  | .arrayExpr elems => 1 + sizeList elems
  | .other => 1

/-- Combined size of a list of key/value node pairs. -/
def sizePairs : List (Node × Node) → Nat
  | [] => 0
  | (k, v) :: rest => 1 + k.size + v.size + sizePairs rest

/-- Combined size of a list of nodes. -/
def sizeList : List Node → Nat
  | [] => 0
  | e :: rest => 1 + e.size + sizeList rest

end

theorem Node.size_pos (n : Node) : 1 ≤ n.size := by
  cases n <;> simp [Node.size] <;> omega

theorem sizePairs_of_mem {kv : Node × Node} {props : List (Node × Node)}
    (h : kv ∈ props) : 1 + kv.1.size + kv.2.size ≤ sizePairs props := by
  induction props with
  | nil => cases h
  | cons hd tl ih =>
    obtain ⟨k0, v0⟩ := hd
    rw [List.mem_cons] at h
    rcases h with h1 | h1
    · subst h1
      simp only [sizePairs]
      omega
    · have := ih h1
      simp only [sizePairs]
      omega

theorem sizeList_of_mem {e : Node} {elems : List Node}
    (h : e ∈ elems) : 1 + e.size ≤ sizeList elems := by
  induction elems with
  | nil => cases h
  | cons hd tl ih =>
    rw [List.mem_cons] at h
    rcases h with h1 | h1
    · subst h1
      simp only [sizeList]
      omega
    · have := ih h1
      simp only [sizeList]
      omega

/--
Modelled from the spec: the Value Resolver (`resolveToValue`, imported by
`expressionTo.js` but not present under `src/`).  Per §2 it is external:
"given a reference node (e.g., an identifier), returns the node of the
expression it was bound to, or unresolved" — modelled as an `Option`.
Per §4.1 the recursive expansion that `toArray` performs on a resolved
key "operates on a strictly smaller subtree", the tree being acyclic;
the field `shrinks` carries that guarantee: the resolved expression is
no larger than the key node it was resolved from.
-/
structure ValueResolver : Type where
  resolveToValue : Node → Option Node
  shrinks : ∀ k v, resolveToValue k = some v → v.size ≤ k.size

/--
The loop of `toArray` in `expressionTo.js`.  The work queue `parts` of the
source holds at most one element at all times (each iteration shifts one
element and pushes at most one — the callee of a call or the object of a
member expression), so the queue-draining loop is a walk down the
callee/object spine, carried here as structural state: `result` is the
accumulator the source mutates, and the return value is the final value of
`result` just before the source's `result.reverse()`.

Branches, in the source's dispatch order: a call pushes its callee and
contributes nothing; a static member pushes its object and appends
`node.property.name`; a computed member pushes its object and either
appends the full (already reversed) recursive flattening of the resolved
key (`result = result.concat(toArray(resolvedPath))`) or the sentinel
`"<computed>"`; identifiers, literals and `this` append one leaf segment
and end the walk; object and array literals append one stringified leaf
segment built with `toString` on their children; any other node kind
appends nothing and ends the walk.
-/
def go (r : ValueResolver) (n : Node) (result : List String) : List String :=
  match n with
  | .call callee _ => go r callee result
  | .memberStatic obj name => go r obj (result ++ [name])
  | .memberComputed obj key =>
    match h : r.resolveToValue key with
    | some v => go r obj (result ++ (go r v []).reverse)
    | none => go r obj (result ++ ["<computed>"])
  | .identifier name => result ++ [name]
  | .literal raw => result ++ [raw]
  | .thisExpr => result ++ ["this"]
  | .objectExpr props =>
    result ++ ["\x7b" ++ String.intercalate ", "
      (props.attach.map (fun p =>
        String.intercalate "." ((go r p.1.1 []).reverse) ++ ": " ++
        String.intercalate "." ((go r p.1.2 []).reverse))) ++ "\x7d"]
  | .arrayExpr elems =>
    result ++ ["[" ++ String.intercalate ", "
      (elems.attach.map (fun e =>
        String.intercalate "." ((go r e.1 []).reverse))) ++ "]"]
  | .other => result
termination_by n.size
decreasing_by
  all_goals try simp only [Node.size]
  all_goals try omega
  all_goals try (have h1 := sizePairs_of_mem p.2; omega)
  all_goals try (have h1 := sizeList_of_mem e.2; omega)
  all_goals (have h1 := r.shrinks k v h; have h2 := Node.size_pos o; omega)

/--
`toArray` of `expressionTo.js` (exported there as `Array`): splits a
member/call expression into string segments, reversing the accumulated
list before returning.
-/
def toArray (r : ValueResolver) (n : Node) : List String :=
  (go r n []).reverse

/--
`toString` of `expressionTo.js` (exported there as `String`):
the segments of `toArray` joined with a dot.
-/
def toString (r : ValueResolver) (n : Node) : String :=
  String.intercalate "." (toArray r n)

/--
Stringification of object-literal properties with an explicit flattener,
used by the fuel-indexed evaluator below.
-/
def strPairsF (f : Node → Option (List String)) :
    List (Node × Node) → Option (List String)
  | [] => some []
  | (k, v) :: rest => do
    let ks ← f k
    let vs ← f v
    let tail ← strPairsF f rest
    pure ((String.intercalate "." ks.reverse ++ ": " ++
      String.intercalate "." vs.reverse) :: tail)

/--
Stringification of array-literal elements with an explicit flattener,
used by the fuel-indexed evaluator below.
-/
def strListF (f : Node → Option (List String)) :
    List Node → Option (List String)
  | [] => some []
  | e :: rest => do
    let es ← f e
    let tail ← strListF f rest
    pure ((String.intercalate "." es.reverse) :: tail)

/--
Fuel-indexed evaluator for the `toArray` loop: identical branch structure
to `go`, but every recursive call consumes one unit of fuel and running out
of fuel yields `none`.  It is structurally recursive, hence kernel-computable
on concrete inputs; `goF_sound` and `goF_complete` connect it to `go`.
-/
def goF (resolve : Node → Option Node) :
    Nat → Node → List String → Option (List String)
  | 0, _, _ => none
  | fuel + 1, n, result =>
    match n with
    | .call callee _ => goF resolve fuel callee result
    | .memberStatic obj name => goF resolve fuel obj (result ++ [name])
    | .memberComputed obj key =>
      match resolve key with
      | some v => do
        let inner ← goF resolve fuel v []
        goF resolve fuel obj (result ++ inner.reverse)
      | none => goF resolve fuel obj (result ++ ["<computed>"])
    | .identifier name => some (result ++ [name])
    | .literal raw => some (result ++ [raw])
    | .thisExpr => some (result ++ ["this"])
    | .objectExpr props => do
      let strs ← strPairsF (fun m => goF resolve fuel m []) props
      pure (result ++ ["\x7b" ++ String.intercalate ", " strs ++ "\x7d"])
    | .arrayExpr elems => do
      let strs ← strListF (fun m => goF resolve fuel m []) elems
      pure (result ++ ["[" ++ String.intercalate ", " strs ++ "]"])
    | .other => some result

/-- Fuel-indexed version of `toArray`. -/
def toArrayF (resolve : Node → Option Node) (fuel : Nat) (n : Node) :
    Option (List String) :=
  (goF resolve fuel n []).map List.reverse

/--
A chain of static property accesses rooted at an identifier:
`chainNode root [s1, ..., sk]` is the tree of `root.s1.s2...sk`.
-/
def chainNode (root : String) (segs : List String) : Node :=
  segs.foldl (fun acc s => Node.memberStatic acc s) (Node.identifier root)

/--
A Value Resolver that resolves every computed key to the literal with raw
text `bar` — the resolved node has size 1, so it can never exceed the size
of the key it replaces.
-/
def barResolver : ValueResolver :=
  ⟨fun _ => some (.literal "bar"), by
    intro k v h
    simp only [Option.some_inj] at h
    subst h
    simp only [Node.size]
    exact Node.size_pos k⟩

/-- A Value Resolver that resolves nothing. -/
def noneResolver : ValueResolver :=
  ⟨fun _ => none, by intro k v h; simp at h⟩

/--
A Value Resolver that resolves any computed-member key to the two-segment
static chain `x.y` (and resolves nothing else).  The resolved node has size
2, a computed-member key has size at least 3, so the spec's strictly-smaller
guarantee holds.
-/
def spliceResolver : ValueResolver :=
  ⟨fun k =>
    match k with
    | .memberComputed _ _ => some (.memberStatic (.identifier "x") "y")
    | _ => none, by
    intro k v h
    cases k <;> simp only [Option.some_inj, reduceCtorEq] at h
    case memberComputed o key =>
      subst h
      have h1 := Node.size_pos o
      have h2 := Node.size_pos key
      simp only [Node.size]
      omega⟩

theorem go_call (r : ValueResolver) (c : Node) (args : List Node)
    (res : List String) : go r (.call c args) res = go r c res := by
  rw [go]

theorem go_memberStatic (r : ValueResolver) (o : Node) (name : String)
    (res : List String) :
    go r (.memberStatic o name) res = go r o (res ++ [name]) := by
  rw [go]

theorem go_memberComputed_some {r : ValueResolver} {k v : Node}
    (o : Node) (res : List String) (h : r.resolveToValue k = some v) :
    go r (.memberComputed o k) res = go r o (res ++ (go r v []).reverse) := by
  rw [go]
  split <;> simp_all

theorem go_memberComputed_none {r : ValueResolver} {k : Node}
    (o : Node) (res : List String) (h : r.resolveToValue k = none) :
    go r (.memberComputed o k) res = go r o (res ++ ["<computed>"]) := by
  rw [go]
  split <;> simp_all

theorem go_identifier (r : ValueResolver) (name : String) (res : List String) :
    go r (.identifier name) res = res ++ [name] := by
  rw [go]

theorem go_literal (r : ValueResolver) (raw : String) (res : List String) :
    go r (.literal raw) res = res ++ [raw] := by
  rw [go]

theorem go_thisExpr (r : ValueResolver) (res : List String) :
    go r .thisExpr res = res ++ ["this"] := by
  rw [go]

theorem go_objectExpr (r : ValueResolver) (props : List (Node × Node))
    (res : List String) :
    go r (.objectExpr props) res = res ++ ["\x7b" ++ String.intercalate ", "
      (props.map (fun p => toString r p.1 ++ ": " ++ toString r p.2)) ++ "\x7d"] := by
  rw [go]
  congr 1
  rw [← List.attach_map_coe props
    (fun p => toString r p.1 ++ ": " ++ toString r p.2)]
  simp [toString, toArray]

theorem go_arrayExpr (r : ValueResolver) (elems : List Node)
    (res : List String) :
    go r (.arrayExpr elems) res = res ++ ["[" ++ String.intercalate ", "
      (elems.map (fun e => toString r e)) ++ "]"] := by
  rw [go]
  congr 1
  rw [← List.attach_map_coe elems (fun e => toString r e)]
  simp [toString, toArray]

theorem go_other (r : ValueResolver) (res : List String) :
    go r .other res = res := by
  rw [go]

/--
The accumulator of the loop only ever grows at its end, so running the loop
on any starting accumulator appends the same contribution that a run on the
empty accumulator produces.
-/
theorem go_append (r : ValueResolver) :
    ∀ (k : Nat) (n : Node), n.size ≤ k →
    ∀ (res : List String), go r n res = res ++ go r n [] := by
  intro k
  induction k with
  | zero =>
    intro n hn
    have := Node.size_pos n
    omega
  | succ k ih =>
    intro n hn res
    cases n with
    | call c args =>
      simp only [Node.size] at hn
      rw [go_call, go_call]
      exact ih c (by omega) res
    | memberStatic o name =>
      simp only [Node.size] at hn
      rw [go_memberStatic, go_memberStatic,
        ih o (by omega) (res ++ [name]), ih o (by omega) ([] ++ [name])]
      simp
    | memberComputed o key =>
      simp only [Node.size] at hn
      cases hres : r.resolveToValue key with
      | some v =>
        rw [go_memberComputed_some o res hres, go_memberComputed_some o [] hres,
          ih o (by omega) (res ++ (go r v []).reverse),
          ih o (by omega) ([] ++ (go r v []).reverse)]
        simp
      | none =>
        rw [go_memberComputed_none o res hres, go_memberComputed_none o [] hres,
          ih o (by omega) (res ++ ["<computed>"]),
          ih o (by omega) ([] ++ ["<computed>"])]
        simp
    | identifier name => rw [go_identifier, go_identifier]; simp
    | literal raw => rw [go_literal, go_literal]; simp
    | thisExpr => rw [go_thisExpr, go_thisExpr]; simp
    | objectExpr props => rw [go_objectExpr, go_objectExpr]; simp
    | arrayExpr elems => rw [go_arrayExpr, go_arrayExpr]; simp
    | other => rw [go_other, go_other]; simp

theorem go_append_full (r : ValueResolver) (n : Node) (res : List String) :
    go r n res = res ++ go r n [] :=
  go_append r n.size n le_rfl res

theorem toArray_call (r : ValueResolver) (c : Node) (args : List Node) :
    toArray r (.call c args) = toArray r c := by
  simp [toArray, go_call]

theorem toArray_memberStatic (r : ValueResolver) (o : Node) (name : String) :
    toArray r (.memberStatic o name) = toArray r o ++ [name] := by
  simp only [toArray, go_memberStatic, List.nil_append]
  rw [go_append_full r o [name]]
  simp

theorem toArray_memberComputed_some {r : ValueResolver} {k v : Node} (o : Node)
    (h : r.resolveToValue k = some v) :
    toArray r (.memberComputed o k) = toArray r o ++ (toArray r v).reverse := by
  simp only [toArray, go_memberComputed_some o [] h, List.nil_append]
  rw [go_append_full r o (go r v []).reverse]
  simp

theorem toArray_memberComputed_none {r : ValueResolver} {k : Node} (o : Node)
    (h : r.resolveToValue k = none) :
    toArray r (.memberComputed o k) = toArray r o ++ ["<computed>"] := by
  simp only [toArray, go_memberComputed_none o [] h, List.nil_append]
  rw [go_append_full r o ["<computed>"]]
  simp

theorem toArray_identifier (r : ValueResolver) (name : String) :
    toArray r (.identifier name) = [name] := by
  simp [toArray, go_identifier]

theorem toArray_literal (r : ValueResolver) (raw : String) :
    toArray r (.literal raw) = [raw] := by
  simp [toArray, go_literal]

theorem toArray_other (r : ValueResolver) : toArray r .other = [] := by
  simp [toArray, go_other]

theorem toArray_foldl_memberStatic (r : ValueResolver) :
    ∀ (segs : List String) (base : Node),
    toArray r (segs.foldl (fun acc s => Node.memberStatic acc s) base) =
      toArray r base ++ segs := by
  intro segs
  induction segs with
  | nil =>
    intro base
    simp
  | cons s rest ih =>
    intro base
    rw [List.foldl_cons, ih (Node.memberStatic base s), toArray_memberStatic]
    simp

theorem strPairsF_sound {r : ValueResolver} {fuel : Nat}
    (ihf : ∀ (m : Node) (res out : List String),
      goF r.resolveToValue fuel m res = some out → go r m res = out) :
    ∀ (props : List (Node × Node)) (strs : List String),
    strPairsF (fun m => goF r.resolveToValue fuel m []) props = some strs →
    strs = props.map (fun p => toString r p.1 ++ ": " ++ toString r p.2) := by
  intro props
  induction props with
  | nil =>
    intro strs h
    simp [strPairsF] at h
    simp [← h]
  | cons hd tl ih =>
    obtain ⟨k, v⟩ := hd
    intro strs h
    simp only [strPairsF, Option.bind_eq_bind, bind, Option.bind_eq_some] at h
    obtain ⟨ks, hks, vs, hvs, tail, htail, hout⟩ := h
    have h1 := ihf k [] ks hks
    have h2 := ihf v [] vs hvs
    have h3 := ih tail htail
    simp only [pure, Option.some_inj] at hout
    subst hout
    simp [toString, toArray, ← h1, ← h2, h3]

theorem strListF_sound {r : ValueResolver} {fuel : Nat}
    (ihf : ∀ (m : Node) (res out : List String),
      goF r.resolveToValue fuel m res = some out → go r m res = out) :
    ∀ (elems : List Node) (strs : List String),
    strListF (fun m => goF r.resolveToValue fuel m []) elems = some strs →
    strs = elems.map (fun e => toString r e) := by
  intro elems
  induction elems with
  | nil =>
    intro strs h
    simp [strListF] at h
    simp [← h]
  | cons hd tl ih =>
    intro strs h
    simp only [strListF, Option.bind_eq_bind, bind, Option.bind_eq_some] at h
    obtain ⟨es, hes, tail, htail, hout⟩ := h
    have h1 := ihf hd [] es hes
    have h3 := ih tail htail
    simp only [pure, Option.some_inj] at hout
    subst hout
    simp [toString, toArray, ← h1, h3]

/--
Soundness of the fuel-indexed evaluator: whenever it finishes within its
fuel, it computes exactly the value of the loop `go`.
-/
theorem goF_sound (r : ValueResolver) :
    ∀ (fuel : Nat) (n : Node) (res out : List String),
    goF r.resolveToValue fuel n res = some out → go r n res = out := by
  intro fuel
  induction fuel with
  | zero =>
    intro n res out h
    simp [goF] at h
  | succ fuel ih =>
    intro n res out h
    cases n with
    | call c args =>
      rw [go_call]
      exact ih c res out h
    | memberStatic o name =>
      rw [go_memberStatic]
      exact ih o (res ++ [name]) out h
    | memberComputed o key =>
      cases hres : r.resolveToValue key with
      | some v =>
        rw [go_memberComputed_some o res hres]
        simp only [goF, hres, Option.bind_eq_bind, bind, Option.bind_eq_some] at h
        obtain ⟨inner, hinner, hrest⟩ := h
        rw [ih v [] inner hinner]
        exact ih o (res ++ inner.reverse) out hrest
      | none =>
        rw [go_memberComputed_none o res hres]
        simp only [goF, hres] at h
        exact ih o (res ++ ["<computed>"]) out h
    | identifier name =>
      simp only [goF, Option.some_inj] at h
      rw [go_identifier, h]
    | literal raw =>
      simp only [goF, Option.some_inj] at h
      rw [go_literal, h]
    | thisExpr =>
      simp only [goF, Option.some_inj] at h
      rw [go_thisExpr, h]
    | objectExpr props =>
      rw [go_objectExpr]
      simp only [goF, Option.bind_eq_bind, bind, Option.bind_eq_some] at h
      obtain ⟨strs, hstrs, hout⟩ := h
      have := strPairsF_sound ih props strs hstrs
      simp only [pure, Option.some_inj] at hout
      rw [← hout, this]
    | arrayExpr elems =>
      rw [go_arrayExpr]
      simp only [goF, Option.bind_eq_bind, bind, Option.bind_eq_some] at h
      obtain ⟨strs, hstrs, hout⟩ := h
      have := strListF_sound ih elems strs hstrs
      simp only [pure, Option.some_inj] at hout
      rw [← hout, this]
    | other =>
      simp only [goF, Option.some_inj] at h
      rw [go_other, h]

theorem strPairsF_complete {r : ValueResolver} {fuel : Nat}
    (ihf : ∀ (m : Node), m.size ≤ fuel → ∀ (res : List String),
      goF r.resolveToValue fuel m res = some (go r m res)) :
    ∀ (props : List (Node × Node)), sizePairs props ≤ fuel →
    strPairsF (fun m => goF r.resolveToValue fuel m []) props =
      some (props.map (fun p => toString r p.1 ++ ": " ++ toString r p.2)) := by
  intro props
  induction props with
  | nil =>
    intro _
    simp [strPairsF]
  | cons hd tl ih =>
    obtain ⟨k, v⟩ := hd
    intro hsz
    simp only [sizePairs] at hsz
    have hk := ihf k (by omega) []
    have hv := ihf v (by omega) []
    have ht := ih (by omega)
    simp only [strPairsF, hk, hv, ht, Option.bind_eq_bind, Option.some_bind]
    simp [toString, toArray, pure]

theorem strListF_complete {r : ValueResolver} {fuel : Nat}
    (ihf : ∀ (m : Node), m.size ≤ fuel → ∀ (res : List String),
      goF r.resolveToValue fuel m res = some (go r m res)) :
    ∀ (elems : List Node), sizeList elems ≤ fuel →
    strListF (fun m => goF r.resolveToValue fuel m []) elems =
      some (elems.map (fun e => toString r e)) := by
  intro elems
  induction elems with
  | nil =>
    intro _
    simp [strListF]
  | cons hd tl ih =>
    intro hsz
    simp only [sizeList] at hsz
    have he := ihf hd (by omega) []
    have ht := ih (by omega)
    simp only [strListF, he, ht, Option.bind_eq_bind, Option.some_bind]
    simp [toString, toArray, pure]

/--
Completeness of the fuel-indexed evaluator: fuel equal to the size of the
node always suffices, and the result is the value of the loop `go`.
-/
theorem goF_complete (r : ValueResolver) :
    ∀ (fuel : Nat) (n : Node), n.size ≤ fuel →
    ∀ (res : List String),
    goF r.resolveToValue fuel n res = some (go r n res) := by
  intro fuel
  induction fuel with
  | zero =>
    intro n hn
    have := Node.size_pos n
    omega
  | succ fuel ih =>
    intro n hn res
    cases n with
    | call c args =>
      simp only [Node.size] at hn
      rw [go_call]
      exact ih c (by omega) res
    | memberStatic o name =>
      simp only [Node.size] at hn
      rw [go_memberStatic]
      exact ih o (by omega) (res ++ [name])
    | memberComputed o key =>
      simp only [Node.size] at hn
      have hko := Node.size_pos o
      cases hres : r.resolveToValue key with
      | some v =>
        have hv := r.shrinks key v hres
        have h1 := ih v (by omega) []
        have h2 := ih o (by omega) (res ++ (go r v []).reverse)
        rw [go_memberComputed_some o res hres]
        simp only [goF, hres, h1, Option.bind_eq_bind, Option.some_bind]
        exact h2
      | none =>
        have h2 := ih o (by omega) (res ++ ["<computed>"])
        rw [go_memberComputed_none o res hres]
        simp only [goF, hres]
        exact h2
    | identifier name =>
      rw [go_identifier]
      simp [goF]
    | literal raw =>
      rw [go_literal]
      simp [goF]
    | thisExpr =>
      rw [go_thisExpr]
      simp [goF]
    | objectExpr props =>
      simp only [Node.size] at hn
      rw [go_objectExpr]
      have hstrs := strPairsF_complete (fun m hm res => ih m hm res) props (by omega)
      simp only [goF, hstrs, Option.bind_eq_bind, Option.some_bind]
      simp [pure]
    | arrayExpr elems =>
      simp only [Node.size] at hn
      rw [go_arrayExpr]
      have hstrs := strListF_complete (fun m hm res => ih m hm res) elems (by omega)
      simp only [goF, hstrs, Option.bind_eq_bind, Option.some_bind]
      simp [pure]
    | other =>
      rw [go_other]
      simp [goF]

end ExpressionTo

namespace Parse

/--
Modelled from the spec: the Documentation Record (the `Documentation` class
imported by `parse.js`, not present under `src/`).  Per §3 it is "a mutable
accumulator ... with a fixed set of named slots"; "later extractor writes to
an existing key merge/override rather than duplicate".  Slots are modelled
as a list of named string-valued entries; `set` overrides an existing key.
-/
structure Documentation : Type where
  slots : List (String × String)
deriving DecidableEq

/-- A fresh Documentation Record (`new Documentation()`): every slot empty. -/
def Documentation.empty : Documentation := ⟨[]⟩

/-- Write a named slot, overriding any previous write to the same key. -/
def Documentation.set (doc : Documentation) (key value : String) : Documentation :=
  ⟨(key, value) :: doc.slots.filter (fun s => s.1 != key)⟩

/-- Read a named slot. -/
def Documentation.get (doc : Documentation) (key : String) : Option String :=
  (doc.slots.find? (fun s => s.1 == key)).map (fun s => s.2)

/--
Modelled from the spec: the Documentation Object (§3), "the immutable,
normalized projection of a Documentation Record".
-/
structure DocumentationObject : Type where
  slots : List (String × String)
deriving DecidableEq

instance : Inhabited DocumentationObject := ⟨⟨[]⟩⟩

/--
Modelled from the spec: `Documentation#toObject` projects the accumulated
record onto the output object.
-/
def Documentation.toObject (doc : Documentation) : DocumentationObject :=
  ⟨doc.slots⟩

/--
Modelled from the spec: the Normalizer (`postProcessDocumentation`, imported
by `parse.js` from `src/utils/` but not present in the source sample): per
§4.3 it "removes empty/default-valued optional slots" and is idempotent.
Modelled as dropping slots whose value is the empty string.
-/
def postProcessDocumentation (o : DocumentationObject) : DocumentationObject :=
  ⟨o.slots.filter (fun s => s.2 != "")⟩

/--
A handler `(documentation, componentDefinition) => void`: it receives the
current record and the candidate definition node (of opaque type `α`) and
mutates the record — modelled as returning the updated record — or throws,
modelled by `Except` with the thrown value as a `String`.
-/
def Handler (α : Type) : Type := Documentation → α → Except String Documentation

/--
The value a Definition Resolver may return, per the contract
`Node | Sequence<Node> | falsy` (spec §3): a JavaScript array
(`Array.isArray(componentDefinitions)` is true — `sequence`), a single
truthy non-array value (`single`), or a falsy value (`falsy`).
-/
inductive ResolverResult (α : Type) : Type where
  | sequence (nodes : List α)
  | single (node : α)
  | falsy

/-- `ERROR_MISSING_DEFINITION` of `parse.js`. -/
def ERROR_MISSING_DEFINITION : String := "No suitable component definition found."

/--
The arrow function `executeHandlers` maps over the candidate definitions:
allocate a fresh `Documentation`, run every handler on it in list order
(`handlers.forEach(handler => handler(documentation, componentDefinition))`,
modelled as a monadic left fold so that a thrown error propagates), then
normalize: `postProcessDocumentation(documentation.toObject())`.
-/
def processOne {α : Type} (handlers : List (Handler α))
    (componentDefinition : α) : Except String DocumentationObject := do
  let documentation ← handlers.foldlM
    (fun doc handler => handler doc componentDefinition) Documentation.empty
  pure (postProcessDocumentation documentation.toObject)

/--
`executeHandlers` of `parse.js`: `componentDefinitions.map(...)` with the
per-candidate extraction above; a handler's thrown error aborts the whole
map (JavaScript `map` with a throwing callback), so the map is monadic.
-/
def executeHandlers {α : Type} (handlers : List (Handler α))
    (componentDefinitions : List α) : Except String (List DocumentationObject) :=
  componentDefinitions.mapM (processOne handlers)

/--
The return value of `parse`: a single documentation object, or an array of
documentation objects, mirroring the shape of the resolver's return value.
-/
inductive ParseResult : Type where
  | one (d : DocumentationObject)
  | many (ds : List DocumentationObject)
deriving DecidableEq

/--
`parse` of `parse.js`.  The Syntax Tree Provider — the call
`recast.parse(src, { parser: buildParser(options) })` — is external to the
source sample and is passed in as `recastParse`, which turns the options and
the source text into the program node handed to the resolver (the `recast`
toolkit reference the resolver also receives carries no information for
this core and is dropped; program nodes `π`, candidate definition nodes `α`
and parser options `ω` are opaque type parameters).

The body mirrors the source exactly: if the resolver result is an array it
must be non-empty (`length === 0` throws `ERROR_MISSING_DEFINITION`) and
every element is processed in order; a single truthy non-array result is
wrapped, processed, and the one-element output unwrapped (`[0]`); a falsy
result throws `ERROR_MISSING_DEFINITION`.
-/
def parse {π α ω : Type} (recastParse : ω → String → π) (src : String)
    (resolver : π → ResolverResult α) (handlers : List (Handler α))
    (options : ω) : Except String ParseResult :=
  let program := recastParse options src
  match resolver program with
  | .sequence componentDefinitions =>
    if componentDefinitions.length = 0 then
      .error ERROR_MISSING_DEFINITION
    else
      (executeHandlers handlers componentDefinitions).map (fun ds => .many ds)
  | .single componentDefinition =>
    (executeHandlers handlers [componentDefinition]).map
      (fun ds => .one (ds.getD 0 default))
  | .falsy => .error ERROR_MISSING_DEFINITION

/--
A handler that writes the fixed text `written` into the slot named
`description` (used to observe handler ordering).
-/
def writerHandler : Handler Unit := fun doc _ =>
  .ok (doc.set "description" "written")

/--
A handler that reads the slot named `description` and copies what it finds
into the slot named `derived` (or records `missing`): its output depends on
what an earlier handler wrote.
-/
def readerHandler : Handler Unit := fun doc _ =>
  .ok (doc.set "derived"
    (match doc.get "description" with
     | some v => v
     | none => "missing"))

/-- A handler that throws on the candidate `true` and is a no-op otherwise. -/
def failingHandler : Handler Bool := fun doc b =>
  if b then .error "boom" else .ok doc

theorem mapM_ok_of_forall_ok {α β : Type} (f : α → Except String β) :
    ∀ (l : List α), (∀ d ∈ l, ∃ o, f d = Except.ok o) →
    ∃ os : List β, l.mapM f = Except.ok os ∧ os.length = l.length ∧
      ∀ (i : Nat) (h1 : i < l.length) (h2 : i < os.length),
        f (l.get ⟨i, h1⟩) = Except.ok (os.get ⟨i, h2⟩) := by
  intro l
  induction l with
  | nil =>
    intro _
    refine ⟨[], rfl, rfl, ?_⟩
    intro i h1 h2
    simp at h1
  | cons hd tl ih =>
    intro hall
    obtain ⟨o, ho⟩ := hall hd (List.mem_cons_self hd tl)
    obtain ⟨os, hos, hlen, hpt⟩ :=
      ih (fun d hd2 => hall d (List.mem_cons_of_mem _ hd2))
    refine ⟨o :: os, ?_, by simp [hlen], ?_⟩
    · rw [List.mapM_cons, ho, hos]
      rfl
    · intro i h1 h2
      cases i with
      | zero => simpa using ho
      | succ i =>
        simp only [List.get_eq_getElem, List.getElem_cons_succ]
        have h1a : i < tl.length := by simpa using h1
        have h2a : i < os.length := by simpa using h2
        simpa using hpt i h1a h2a

theorem mapM_error_of_prefix {α β : Type} (f : α → Except String β) (e : String) :
    ∀ (pre : List α) (bad : α) (post : List α),
    (∀ d ∈ pre, ∃ o, f d = Except.ok o) → f bad = Except.error e →
    (pre ++ bad :: post).mapM f = Except.error e := by
  intro pre
  induction pre with
  | nil =>
    intro bad post _ hbad
    rw [List.nil_append, List.mapM_cons, hbad]
    rfl
  | cons hd tl ih =>
    intro bad post hall hbad
    obtain ⟨o, ho⟩ := hall hd (List.mem_cons_self hd tl)
    have := ih bad post (fun d hd2 => hall d (List.mem_cons_of_mem _ hd2)) hbad
    rw [List.cons_append, List.mapM_cons, ho, this]
    rfl

theorem executeHandlers_singleton {α : Type} (handlers : List (Handler α))
    (d : α) (o : DocumentationObject) (h : processOne handlers d = Except.ok o) :
    executeHandlers handlers [d] = Except.ok [o] := by
  rw [executeHandlers, List.mapM_cons, h, List.mapM_nil]
  rfl

end Parse

/--
C1: for every resolver and handler list (whose handlers all return
normally), if the resolver returns a single truthy non-sequence node,
`parse` returns one scalar Documentation Object not wrapped in a sequence
(`ParseResult.one`); if the resolver returns a sequence of N ≥ 1 nodes,
`parse` returns a sequence (`ParseResult.many`) of exactly N Documentation
Objects, the i-th produced from the i-th resolver node, in resolver order.
-/
theorem claim_C1 {π α ω : Type} (recastParse : ω → String → π) (src : String)
    (resolver : π → Parse.ResolverResult α) (handlers : List (Parse.Handler α))
    (options : ω)
    (H : ∀ d : α, ∃ o, Parse.processOne handlers d = Except.ok o) :
    (∀ (n : α) (o : Parse.DocumentationObject),
      resolver (recastParse options src) = .single n →
      Parse.processOne handlers n = Except.ok o →
      Parse.parse recastParse src resolver handlers options =
        Except.ok (.one o)) ∧
    (∀ nodes : List α,
      resolver (recastParse options src) = .sequence nodes → nodes ≠ [] →
      ∃ os : List Parse.DocumentationObject,
        Parse.parse recastParse src resolver handlers options =
          Except.ok (.many os) ∧
        os.length = nodes.length ∧
        ∀ (i : Nat) (h1 : i < nodes.length) (h2 : i < os.length),
          Parse.processOne handlers (nodes.get ⟨i, h1⟩) =
            Except.ok (os.get ⟨i, h2⟩)) := by
  constructor
  · intro n o hres hok
    rw [Parse.parse]
    simp only [hres]
    rw [Parse.executeHandlers_singleton handlers n o hok]
    rfl
  · intro nodes hres hne
    obtain ⟨os, hos, hlen, hpt⟩ :=
      Parse.mapM_ok_of_forall_ok (Parse.processOne handlers) nodes
        (fun d _ => H d)
    refine ⟨os, ?_, hlen, hpt⟩
    rw [Parse.parse]
    simp only [hres]
    rw [if_neg (by simpa using hne)]
    rw [Parse.executeHandlers, hos]
    rfl

/--
C1 witness: a resolver returning the single node `()` with no handlers
yields the scalar result `ParseResult.one` of the empty documentation
object.
-/
theorem claim_C1_witness :
    Parse.parse (fun _ _ => ()) "s" (fun _ => Parse.ResolverResult.single ())
      ([] : List (Parse.Handler Unit)) () =
      Except.ok (Parse.ParseResult.one ⟨[]⟩) :=
  (claim_C1 (fun _ _ => ()) "s" (fun _ => Parse.ResolverResult.single ())
    ([] : List (Parse.Handler Unit)) () (fun _ => ⟨⟨[]⟩, rfl⟩)).1
    () ⟨[]⟩ rfl rfl

/--
C2: with handlers that all return normally, `parse` raises exactly when the
resolver returns an empty sequence or a falsy value, and the raised error
is always the fixed message of `ERROR_MISSING_DEFINITION`
("No suitable component definition found.") — the only error the core
raises directly.
-/
theorem claim_C2 {π α ω : Type} (recastParse : ω → String → π) (src : String)
    (resolver : π → Parse.ResolverResult α) (handlers : List (Parse.Handler α))
    (options : ω)
    (H : ∀ d : α, ∃ o, Parse.processOne handlers d = Except.ok o)
    (e : String) :
    Parse.parse recastParse src resolver handlers options = Except.error e ↔
    ((resolver (recastParse options src) = .sequence [] ∨
      resolver (recastParse options src) = .falsy) ∧
     e = Parse.ERROR_MISSING_DEFINITION) := by
  cases hres : resolver (recastParse options src) with
  | sequence nodes =>
    cases nodes with
    | nil =>
      rw [Parse.parse]
      simp only [hres]
      simp [eq_comm]
    | cons hd tl =>
      obtain ⟨os, hos, _, _⟩ :=
        Parse.mapM_ok_of_forall_ok (Parse.processOne handlers) (hd :: tl)
          (fun d _ => H d)
      rw [Parse.parse]
      simp only [hres]
      rw [if_neg (by simp)]
      rw [Parse.executeHandlers, hos]
      simp [Except.map]
  | single n =>
    obtain ⟨o, ho⟩ := H n
    rw [Parse.parse]
    simp only [hres]
    rw [Parse.executeHandlers_singleton handlers n o ho]
    simp [Except.map]
  | falsy =>
    rw [Parse.parse]
    simp only [hres]
    simp [eq_comm]

/--
C2 witness: a resolver returning a falsy value makes `parse` raise the
fixed missing-definition message.
-/
theorem claim_C2_witness :
    Parse.parse (fun _ _ => ()) "s" (fun _ => Parse.ResolverResult.falsy)
      ([] : List (Parse.Handler Unit)) () =
      Except.error Parse.ERROR_MISSING_DEFINITION :=
  (claim_C2 (fun _ _ => ()) "s" (fun _ => Parse.ResolverResult.falsy)
    ([] : List (Parse.Handler Unit)) () (fun _ => ⟨⟨[]⟩, rfl⟩)
    Parse.ERROR_MISSING_DEFINITION).mpr ⟨Or.inr rfl, rfl⟩

/--
C7: the per-candidate pipeline allocates a fresh record
(`Documentation.empty` seeds the fold), runs the handlers in list order —
the first handler of the chain receives the fresh record and the rest
continue on its output; a handler appended at the end runs last, on the
record accumulated by all the others — and only after the whole chain does
the normalization (`postProcessDocumentation` after `toObject`) run.
Consequently, reversing two handlers where the second reads the slot the
first writes is observable: `writerHandler` then `readerHandler` produces a
different Documentation Object than the reversed order.
-/
theorem claim_C7 :
    (∀ (α : Type) (handlers : List (Parse.Handler α)) (h : Parse.Handler α)
      (d : α),
      Parse.processOne (handlers ++ [h]) d =
        (handlers.foldlM
            (fun (doc : Parse.Documentation) (hh : Parse.Handler α) =>
              hh doc d)
            Parse.Documentation.empty).bind
          (fun doc => (h doc d).map
            (fun doc2 => Parse.postProcessDocumentation doc2.toObject))) ∧
    (∀ (α : Type) (h0 : Parse.Handler α) (rest : List (Parse.Handler α))
      (d : α),
      (h0 :: rest).foldlM
          (fun (doc : Parse.Documentation) (hh : Parse.Handler α) =>
            hh doc d)
          Parse.Documentation.empty =
        (h0 Parse.Documentation.empty d).bind
          (fun doc => rest.foldlM
            (fun (doc : Parse.Documentation) (hh : Parse.Handler α) =>
              hh doc d) doc)) ∧
    Parse.processOne [Parse.writerHandler, Parse.readerHandler] () ≠
      Parse.processOne [Parse.readerHandler, Parse.writerHandler] () := by
  refine ⟨?_, ?_, ?_⟩
  · intro α handlers h d
    rw [Parse.processOne, List.foldlM_append]
    cases hacc : handlers.foldlM (fun doc hh => hh doc d)
        Parse.Documentation.empty with
    | error e => rfl
    | ok doc =>
      simp only [List.foldlM_cons, List.foldlM_nil]
      cases hh : h doc d <;>
        simp [bind, Except.bind, Except.map, pure, Except.pure, hh]
  · intro α h0 rest d
    rw [List.foldlM_cons]
    cases h0 Parse.Documentation.empty d <;> rfl
  · intro hcontra
    have h1 : Parse.processOne [Parse.writerHandler, Parse.readerHandler] () =
        Except.ok ⟨[("derived", "written"), ("description", "written")]⟩ := rfl
    have h2 : Parse.processOne [Parse.readerHandler, Parse.writerHandler] () =
        Except.ok ⟨[("description", "written"), ("derived", "missing")]⟩ := rfl
    rw [h1, h2] at hcontra
    simp at hcontra

/--
C8: if any handler raises on any candidate of a batch, the whole `parse`
call fails with that same error, unmodified, and no documentation objects
are returned — in particular none for the earlier candidates of the batch
that had already been processed successfully.
-/
theorem claim_C8 {π α ω : Type} (recastParse : ω → String → π) (src : String)
    (resolver : π → Parse.ResolverResult α) (handlers : List (Parse.Handler α))
    (options : ω) (pre post : List α) (bad : α) (e : String)
    (hres : resolver (recastParse options src) = .sequence (pre ++ bad :: post))
    (hpre : ∀ d ∈ pre, ∃ o, Parse.processOne handlers d = Except.ok o)
    (hbad : Parse.processOne handlers bad = Except.error e) :
    Parse.parse recastParse src resolver handlers options = Except.error e := by
  rw [Parse.parse]
  simp only [hres]
  rw [if_neg (by simp)]
  rw [Parse.executeHandlers,
    Parse.mapM_error_of_prefix (Parse.processOne handlers) e pre bad post
      hpre hbad]
  rfl

/--
C8 witness: a two-candidate batch where the first candidate succeeds and
the second makes the handler throw fails as a whole with the handler's own
error, returning nothing for the first candidate.
-/
theorem claim_C8_witness :
    Parse.parse (fun _ _ => ()) "s"
      (fun _ => Parse.ResolverResult.sequence [false, true])
      [Parse.failingHandler] () = Except.error "boom" :=
  claim_C8 (fun _ _ => ()) "s"
    (fun _ => Parse.ResolverResult.sequence [false, true])
    [Parse.failingHandler] () [false] [] true "boom" rfl
    (by
      intro d hd
      simp only [List.mem_singleton] at hd
      subst hd
      exact ⟨Parse.postProcessDocumentation
        (Parse.Documentation.empty.toObject), rfl⟩)
    rfl

/--
C3: for every chain of static property accesses `a.b.c...`, `toArray`
returns the segment names in root-to-leaf order (the accumulated list is
reversed before returning) and `toString` returns those same segments
joined with a dot.
-/
theorem claim_C3 (r : ExpressionTo.ValueResolver) (root : String)
    (segs : List String) :
    ExpressionTo.toArray r (ExpressionTo.chainNode root segs) = root :: segs ∧
    ExpressionTo.toString r (ExpressionTo.chainNode root segs) =
      String.intercalate "." (root :: segs) := by
  have h : ExpressionTo.toArray r (ExpressionTo.chainNode root segs) =
      root :: segs := by
    rw [ExpressionTo.chainNode, ExpressionTo.toArray_foldl_memberStatic,
      ExpressionTo.toArray_identifier]
    rfl
  exact ⟨h, by rw [ExpressionTo.toString, h]⟩

/--
C4: on the computed access `foo[key]`, a Value Resolver that resolves the
key to the literal with raw text `bar` makes `toArray` return
`["foo", "bar"]`; on the identical node, a Value Resolver that fails to
resolve the key makes `toArray` return `["foo", "<computed>"]`.
-/
theorem claim_C4 :
    ExpressionTo.toArray ExpressionTo.barResolver
      (.memberComputed (.identifier "foo") (.identifier "key")) =
      ["foo", "bar"] ∧
    ExpressionTo.toArray ExpressionTo.noneResolver
      (.memberComputed (.identifier "foo") (.identifier "key")) =
      ["foo", "<computed>"] := by
  constructor
  · rw [ExpressionTo.toArray_memberComputed_some (.identifier "foo")
      (rfl : ExpressionTo.barResolver.resolveToValue (.identifier "key") =
        some (.literal "bar"))]
    rw [ExpressionTo.toArray_identifier, ExpressionTo.toArray_literal]
    rfl
  · rw [ExpressionTo.toArray_memberComputed_none (.identifier "foo")
      (rfl : ExpressionTo.noneResolver.resolveToValue (.identifier "key") =
        none)]
    rw [ExpressionTo.toArray_identifier]
    rfl

/--
C5 counterexample: the claim that the segments of the resolved key
expression are spliced in, in the same root-to-leaf order that flattening
the resolved expression on its own yields, is false.  `spliceResolver`
resolves the key of `foo[a[z]]` to the expression `x.y`, which flattens
on its own to `["x", "y"]`; yet flattening `foo[a[z]]` yields
`["foo", "y", "x"]` — the spliced segments appear reversed — and not the
claimed `["foo", "x", "y"]`.
-/
theorem claim_C5_counterexample :
    ExpressionTo.spliceResolver.resolveToValue
        (.memberComputed (.identifier "a") (.identifier "z")) =
      some (.memberStatic (.identifier "x") "y") ∧
    ExpressionTo.toArray ExpressionTo.spliceResolver
        (.memberStatic (.identifier "x") "y") = ["x", "y"] ∧
    ExpressionTo.toArray ExpressionTo.spliceResolver
        (.memberComputed (.identifier "foo")
          (.memberComputed (.identifier "a") (.identifier "z"))) =
      ["foo", "y", "x"] ∧
    ExpressionTo.toArray ExpressionTo.spliceResolver
        (.memberComputed (.identifier "foo")
          (.memberComputed (.identifier "a") (.identifier "z"))) ≠
      ["foo", "x", "y"] := by
  have hxy : ExpressionTo.toArray ExpressionTo.spliceResolver
      (.memberStatic (.identifier "x") "y") = ["x", "y"] := by
    rw [ExpressionTo.toArray_memberStatic, ExpressionTo.toArray_identifier]
    rfl
  have hmain : ExpressionTo.toArray ExpressionTo.spliceResolver
      (.memberComputed (.identifier "foo")
        (.memberComputed (.identifier "a") (.identifier "z"))) =
      ["foo", "y", "x"] := by
    rw [ExpressionTo.toArray_memberComputed_some (.identifier "foo")
      (rfl : ExpressionTo.spliceResolver.resolveToValue
        (.memberComputed (.identifier "a") (.identifier "z")) =
        some (.memberStatic (.identifier "x") "y"))]
    rw [ExpressionTo.toArray_identifier, hxy]
    rfl
  refine ⟨rfl, hxy, hmain, ?_⟩
  rw [hmain]
  simp

/--
C5 (amended): for every computed property access whose key resolves via the
Value Resolver, the segments of the recursively flattened resolved
expression are spliced into the resulting path at the position of that
access, but in reversed order relative to flattening the resolved
expression on its own (the source concatenates the already reversed
recursive result into the still unreversed accumulator and reverses the
whole accumulator at the end; for a single-segment resolution the two
orders coincide).
-/
theorem claim_C5 {r : ExpressionTo.ValueResolver} {key v : ExpressionTo.Node}
    (obj : ExpressionTo.Node) (h : r.resolveToValue key = some v) :
    ExpressionTo.toArray r (.memberComputed obj key) =
      ExpressionTo.toArray r obj ++ (ExpressionTo.toArray r v).reverse :=
  ExpressionTo.toArray_memberComputed_some obj h

/--
C5 witness: the amended claim at the counterexample's input — the resolved
expression `x.y` is spliced after `foo` in reversed order.
-/
theorem claim_C5_witness :
    ExpressionTo.toArray ExpressionTo.spliceResolver
        (.memberComputed (.identifier "foo")
          (.memberComputed (.identifier "a") (.identifier "z"))) =
      ExpressionTo.toArray ExpressionTo.spliceResolver (.identifier "foo") ++
        (ExpressionTo.toArray ExpressionTo.spliceResolver
          (.memberStatic (.identifier "x") "y")).reverse :=
  claim_C5 (.identifier "foo") rfl

/--
C6: a call expression contributes no path segment and its arguments are
never part of the path — only its callee is expanded — so for every
resolver, callee and argument list, flattening the call equals flattening
its callee; in particular `foo(arg).bar` flattens to `["foo", "bar"]`.
-/
theorem claim_C6 :
    (∀ (r : ExpressionTo.ValueResolver) (callee : ExpressionTo.Node)
      (args : List ExpressionTo.Node),
      ExpressionTo.toArray r (.call callee args) =
        ExpressionTo.toArray r callee) ∧
    ExpressionTo.toArray ExpressionTo.noneResolver
      (.memberStatic (.call (.identifier "foo") [.identifier "arg"]) "bar") =
      ["foo", "bar"] := by
  refine ⟨fun r callee args => ExpressionTo.toArray_call r callee args, ?_⟩
  rw [ExpressionTo.toArray_memberStatic, ExpressionTo.toArray_call,
    ExpressionTo.toArray_identifier]
  rfl

/--
C9: `toArray` and `toString` are total Lean functions (they return plain
values, never raising): an unresolvable computed key degrades to the
sentinel segment `"<computed>"`, and a node kind outside the handled set
(`Node.other`) contributes no segment and no error, both on its own and as
the object of a longer chain.
-/
theorem claim_C9 :
    (∀ (r : ExpressionTo.ValueResolver) (obj key : ExpressionTo.Node),
      r.resolveToValue key = none →
      ExpressionTo.toArray r (.memberComputed obj key) =
        ExpressionTo.toArray r obj ++ ["<computed>"]) ∧
    (∀ r : ExpressionTo.ValueResolver,
      ExpressionTo.toArray r .other = [] ∧
      ExpressionTo.toString r .other = "") ∧
    (∀ (r : ExpressionTo.ValueResolver) (name : String),
      ExpressionTo.toArray r (.memberStatic .other name) = [name]) := by
  refine ⟨?_, ?_, ?_⟩
  · intro r obj key h
    exact ExpressionTo.toArray_memberComputed_none obj h
  · intro r
    refine ⟨ExpressionTo.toArray_other r, ?_⟩
    rw [ExpressionTo.toString, ExpressionTo.toArray_other]
    rfl
  · intro r name
    rw [ExpressionTo.toArray_memberStatic, ExpressionTo.toArray_other]
    rfl

/--
C9 witness: the degradation behaviors at concrete inputs, with a Value
Resolver that resolves nothing.
-/
theorem claim_C9_witness :
    ExpressionTo.toArray ExpressionTo.noneResolver
        (.memberComputed (.identifier "foo") (.identifier "k")) =
      ExpressionTo.toArray ExpressionTo.noneResolver (.identifier "foo") ++
        ["<computed>"] ∧
    ExpressionTo.toArray ExpressionTo.noneResolver .other = [] ∧
    ExpressionTo.toString ExpressionTo.noneResolver .other = "" ∧
    ExpressionTo.toArray ExpressionTo.noneResolver
      (.memberStatic .other "p") = ["p"] :=
  ⟨claim_C9.1 ExpressionTo.noneResolver (.identifier "foo") (.identifier "k")
    rfl,
   (claim_C9.2.1 ExpressionTo.noneResolver).1,
   (claim_C9.2.1 ExpressionTo.noneResolver).2,
   claim_C9.2.2 ExpressionTo.noneResolver "p"⟩

/--
C10: for every finite syntax tree, the `toArray` loop terminates: the
fuel-indexed evaluator `toArrayF`, which pays one unit of fuel for every
dequeue / recursive expansion / stringification step, finishes within fuel
equal to the tree's size and computes exactly `toArray` — given the spec's
guarantee (carried by `ValueResolver.shrinks`) that the recursive expansion
of a resolved computed key operates on a subtree no larger than the key.
-/
theorem claim_C10 (r : ExpressionTo.ValueResolver) (n : ExpressionTo.Node)
    (fuel : Nat) (h : n.size ≤ fuel) :
    ExpressionTo.toArrayF r.resolveToValue fuel n =
      some (ExpressionTo.toArray r n) := by
  rw [ExpressionTo.toArrayF, ExpressionTo.goF_complete r fuel n h []]
  rfl

/--
C10 witness: the evaluator finishes on a concrete node within fuel equal
to its size.
-/
theorem claim_C10_witness :
    (ExpressionTo.Node.identifier "x").size ≤ 1 ∧
    ExpressionTo.toArrayF ExpressionTo.noneResolver.resolveToValue 1
        (.identifier "x") =
      some (ExpressionTo.toArray ExpressionTo.noneResolver (.identifier "x")) :=
  ⟨by simp [ExpressionTo.Node.size],
   claim_C10 ExpressionTo.noneResolver (.identifier "x") 1
     (by simp [ExpressionTo.Node.size])⟩
